import Mathlib

/-!
# Verification of `tools/extract_tags.py`

Shallow embedding of the PDF tag-extraction script.  Python strings are
modelled as `List Char` (the script only ever manipulates ASCII text, so the
ASCII classifiers of `Char` model Python's `\d`, `[A-Z]`, `\w`, `str.upper`
and `str.split` faithfully on the inputs in scope).  The external PDF library
(PyMuPDF) is modelled as an environment providing, per page, the extracted
text and the substring-search results; either collaborator call may fail,
which models a raised exception.
-/

namespace ExtractTags

/-- Python strings, modelled as lists of characters. -/
abbrev Str := List Char

/-- ASCII model of the regex class `\w` (word characters): letters, digits
and underscore.  Used for the `\b` word boundaries of `TAG_PATTERN`. -/
def isWordChar (c : Char) : Bool :=
  c.isAlphanum || c == '_'

/-- ASCII model of `[A-Z]` under `re.IGNORECASE`: any ASCII letter. -/
def isTagLetter (c : Char) : Bool :=
  c.isAlpha

/-- Python whitespace for `str.strip` / `str.split`:
space, tab, newline, carriage return, vertical tab, form feed. -/
def isPySpace (c : Char) : Bool :=
  c == ' ' || c == '\t' || c == '\n' || c == '\r' || c == '\x0b' || c == '\x0c'

/-- `str.upper` on one ASCII character. -/
def upperChar (c : Char) : Char := c.toUpper

/-- `str.upper` on a string. -/
def upperStr (s : Str) : Str := s.map upperChar

/-!
## The regex `TAG_PATTERN = re.compile(r'\b(\d{2}/[A-Z]{2}\d{3,4})\b', re.IGNORECASE)`

`tagFrom s` models one anchored matching attempt of the pattern at the start
of the suffix `s` (the `\b` *before* the match is checked by the caller,
which knows the preceding character).  The quantifier `\d{3,4}` is greedy:
a fourth digit is consumed when present; the trailing `\b` then requires the
next character (if any) to be a non-word character.  When the fourth digit is
present but the trailing boundary fails, backtracking to the three-digit
alternative also fails, because the fourth digit itself is then a word
character at the boundary position.
-/

/-- One matching attempt of `TAG_PATTERN` (without the leading boundary) at
the head of `s`.  Returns the matched text and the remaining suffix. -/
def tagFrom : Str → Option (Str × Str)
  | c1 :: c2 :: c3 :: a1 :: a2 :: d1 :: d2 :: d3 :: rest =>
    if c1.isDigit && c2.isDigit && c3 == '/' && isTagLetter a1 && isTagLetter a2
        && d1.isDigit && d2.isDigit && d3.isDigit then
      match rest with
      | [] => some ([c1, c2, c3, a1, a2, d1, d2, d3], [])
      | d4 :: rest2 =>
        if d4.isDigit then
          match rest2 with
          | [] => some ([c1, c2, c3, a1, a2, d1, d2, d3, d4], [])
          | e :: _ =>
            if isWordChar e then none
            else some ([c1, c2, c3, a1, a2, d1, d2, d3, d4], rest2)
        else
          if isWordChar d4 then none
          else some ([c1, c2, c3, a1, a2, d1, d2, d3], rest)
    else none
  | _ => none

/-- The token shape `\d{2}/[A-Z]{2}\d{3,4}` (case-insensitive), written out
from the spec's words: two digits, a slash, two letters, then three or four
digits.  Used as the specification side of the pattern-correctness claim. -/
def specCore : Str → Bool
  | [c1, c2, c3, a1, a2, d1, d2, d3] =>
    c1.isDigit && c2.isDigit && c3 == '/' && isTagLetter a1 && isTagLetter a2
      && d1.isDigit && d2.isDigit && d3.isDigit
  | [c1, c2, c3, a1, a2, d1, d2, d3, d4] =>
    c1.isDigit && c2.isDigit && c3 == '/' && isTagLetter a1 && isTagLetter a2
      && d1.isDigit && d2.isDigit && d3.isDigit && d4.isDigit
  | _ => false

/-- The character before a match position is compatible with `\b`: either
there is none (and the scanner flag must be `false`) or it is a non-word
character. -/
def okBefore (pw : Bool) (pre : Str) : Prop :=
  match pre.getLast? with
  | none => pw = false
  | some c => isWordChar c = false

/-- The character after a match is compatible with `\b`: either the text
ends there or a non-word character follows. -/
def okAfter (post : Str) : Prop :=
  match post.head? with
  | none => True
  | some c => isWordChar c = false

theorem tagFrom_sound (s m rest : Str) (h : tagFrom s = some (m, rest)) :
    s = m ++ rest ∧ specCore m = true ∧ okAfter rest := by
  rcases s with _ | ⟨c1, s⟩; · simp [tagFrom] at h
  rcases s with _ | ⟨c2, s⟩; · simp [tagFrom] at h
  rcases s with _ | ⟨c3, s⟩; · simp [tagFrom] at h
  rcases s with _ | ⟨a1, s⟩; · simp [tagFrom] at h
  rcases s with _ | ⟨a2, s⟩; · simp [tagFrom] at h
  rcases s with _ | ⟨d1, s⟩; · simp [tagFrom] at h
  rcases s with _ | ⟨d2, s⟩; · simp [tagFrom] at h
  rcases s with _ | ⟨d3, r⟩; · simp [tagFrom] at h
  simp only [tagFrom] at h
  split at h
  · rename_i hcond
    split at h
    · -- rest = []
      simp only [Option.some.injEq, Prod.mk.injEq] at h
      obtain ⟨hm, hr⟩ := h
      subst hm; subst hr
      refine ⟨by simp, ?_, by simp [okAfter]⟩
      simp only [specCore]; exact hcond
    · -- rest = d4 :: rest2
      rename_i d4 r2
      split at h
      · rename_i hd4
        split at h
        · -- rest2 = []
          simp only [Option.some.injEq, Prod.mk.injEq] at h
          obtain ⟨hm, hr⟩ := h
          subst hm; subst hr
          refine ⟨by simp, ?_, by simp [okAfter]⟩
          simp only [specCore, hd4, Bool.and_true]; exact hcond
        · -- rest2 = e :: r3
          rename_i e r3
          split at h
          · exact absurd h (by simp)
          · rename_i he
            simp only [Option.some.injEq, Prod.mk.injEq] at h
            obtain ⟨hm, hr⟩ := h
            subst hm; subst hr
            refine ⟨by simp, ?_, ?_⟩
            · simp only [specCore, hd4, Bool.and_true]; exact hcond
            · simpa [okAfter] using he
      · split at h
        · exact absurd h (by simp)
        · rename_i hd4 hw
          simp only [Option.some.injEq, Prod.mk.injEq] at h
          obtain ⟨hm, hr⟩ := h
          subst hm; subst hr
          refine ⟨by simp, ?_, ?_⟩
          · simp only [specCore]; exact hcond
          · simpa [okAfter] using hw
  · exact absurd h (by simp)

theorem word_of_digit (c : Char) (h : c.isDigit = true) : isWordChar c = true := by
  simp [isWordChar, Char.isAlphanum, h]

theorem word_of_alpha (c : Char) (h : c.isAlpha = true) : isWordChar c = true := by
  simp [isWordChar, Char.isAlphanum, h]

theorem digit_and_alpha_absurd (c : Char) (hd : c.isDigit = true) (ha : c.isAlpha = true) :
    False := by
  simp only [Char.isDigit, Char.isAlpha, Char.isUpper, Char.isLower, Bool.or_eq_true,
    Bool.and_eq_true, decide_eq_true_eq] at hd ha
  obtain ⟨h1, h2⟩ := hd
  have e1 : (UInt32.toBitVec 48).toNat = 48 := rfl
  have e2 : (UInt32.toBitVec 57).toNat = 57 := rfl
  have e3 : (UInt32.toBitVec 65).toNat = 65 := rfl
  have e4 : (UInt32.toBitVec 90).toNat = 90 := rfl
  have e5 : (UInt32.toBitVec 97).toNat = 97 := rfl
  have e6 : (UInt32.toBitVec 122).toNat = 122 := rfl
  simp only [UInt32.le_def, BitVec.le_def] at h1 h2
  rcases ha with ⟨h3, h4⟩ | ⟨h3, h4⟩ <;>
    simp only [UInt32.le_def, BitVec.le_def] at h3 h4 <;> omega

theorem okBefore_cons (c : Char) (pw' : Bool) (pre : Str)
    (h : okBefore (isWordChar c) pre) : okBefore pw' (c :: pre) := by
  rcases pre with _ | ⟨x, xs⟩
  · simp only [okBefore, List.getLast?_nil] at h
    simp [okBefore, h]
  · simpa [okBefore, List.getLast?_cons_cons] using h

theorem okBefore_of_cons (c : Char) (pw' : Bool) (pre : Str)
    (h : okBefore pw' (c :: pre)) : okBefore (isWordChar c) pre := by
  rcases pre with _ | ⟨x, xs⟩
  · simp only [okBefore, List.getLast?_singleton] at h
    simp [okBefore, h]
  · simpa [okBefore, List.getLast?_cons_cons] using h

theorem specCore_length (m : Str) (h : specCore m = true) :
    m.length = 8 ∨ m.length = 9 := by
  unfold specCore at h
  split at h <;> simp_all

/-- Every character of a matched token except the slash at index 2 is a word
character, and the characters at indices 0 and 3 are a digit and a letter. -/
theorem specCore_chars (m : Str) (h : specCore m = true) :
    (∀ k ch, m[k]? = some ch → k ≠ 2 → isWordChar ch = true) ∧
      (∃ ch, m[0]? = some ch ∧ ch.isDigit = true) ∧
      (∃ ch, m[3]? = some ch ∧ ch.isAlpha = true) := by
  unfold specCore at h
  split at h
  · rename_i c1 c2 c3 a1 a2 d1 d2 d3
    simp only [Bool.and_eq_true, beq_iff_eq] at h
    obtain ⟨⟨⟨⟨⟨⟨⟨h1, h2⟩, h3⟩, h4⟩, h5⟩, h6⟩, h7⟩, h8⟩
      := h
    refine ⟨?_, ⟨c1, rfl, h1⟩, ⟨a1, rfl, h4⟩⟩
    intro k ch hch hk
    match k with
    | 0 => simp at hch; subst hch; exact word_of_digit _ h1
    | 1 => simp at hch; subst hch; exact word_of_digit _ h2
    | 2 => exact absurd rfl hk
    | 3 => simp at hch; subst hch; exact word_of_alpha _ h4
    | 4 => simp at hch; subst hch; exact word_of_alpha _ h5
    | 5 => simp at hch; subst hch; exact word_of_digit _ h6
    | 6 => simp at hch; subst hch; exact word_of_digit _ h7
    | 7 => simp at hch; subst hch; exact word_of_digit _ h8
    | n + 8 => simp at hch
  · rename_i c1 c2 c3 a1 a2 d1 d2 d3 d4
    simp only [Bool.and_eq_true, beq_iff_eq] at h
    obtain ⟨⟨⟨⟨⟨⟨⟨⟨h1, h2⟩, h3⟩, h4⟩, h5⟩, h6⟩, h7⟩, h8⟩, h9⟩
      := h
    refine ⟨?_, ⟨c1, rfl, h1⟩, ⟨a1, rfl, h4⟩⟩
    intro k ch hch hk
    match k with
    | 0 => simp at hch; subst hch; exact word_of_digit _ h1
    | 1 => simp at hch; subst hch; exact word_of_digit _ h2
    | 2 => exact absurd rfl hk
    | 3 => simp at hch; subst hch; exact word_of_alpha _ h4
    | 4 => simp at hch; subst hch; exact word_of_alpha _ h5
    | 5 => simp at hch; subst hch; exact word_of_digit _ h6
    | 6 => simp at hch; subst hch; exact word_of_digit _ h7
    | 7 => simp at hch; subst hch; exact word_of_digit _ h8
    | 8 => simp at hch; subst hch; exact word_of_digit _ h9
    | n + 9 => simp at hch
  · exact absurd h (by simp)

/-- A token of the right shape followed by a non-word character (or the end
of the text) is exactly what one matching attempt returns. -/
theorem tagFrom_complete (m post : Str) (hm : specCore m = true) (hp : okAfter post) :
    tagFrom (m ++ post) = some (m, post) := by
  unfold specCore at hm
  split at hm
  · rename_i c1 c2 c3 a1 a2 d1 d2 d3
    rcases post with _ | ⟨e, post'⟩
    · simp only [List.append_nil]
      unfold tagFrom
      simp [hm]
    · have he : isWordChar e = false := by simpa [okAfter] using hp
      have hed : e.isDigit = false := by
        cases hd : e.isDigit
        · rfl
        · exact absurd (word_of_digit e hd) (by simp [he])
      simp only [List.cons_append, List.nil_append]
      unfold tagFrom
      simp [hm, hed, he]
  · rename_i c1 c2 c3 a1 a2 d1 d2 d3 d4
    have hm8 : (c1.isDigit && c2.isDigit && (c3 == '/') && isTagLetter a1 && isTagLetter a2
        && d1.isDigit && d2.isDigit && d3.isDigit) = true := by
      simp only [Bool.and_eq_true] at hm ⊢
      exact hm.1
    have hd4 : d4.isDigit = true := by
      simp only [Bool.and_eq_true] at hm
      exact hm.2
    rcases post with _ | ⟨e, post'⟩
    · simp only [List.append_nil]
      unfold tagFrom
      simp [hm8, hd4]
    · have he : isWordChar e = false := by simpa [okAfter] using hp
      simp only [List.cons_append, List.nil_append]
      unfold tagFrom
      simp [hm8, hd4, he]
  · exact absurd hm (by simp)

/-- The scanner behind `TAG_PATTERN.finditer(text)`: walks the text one
character at a time.  `skip` counts characters of an already-reported match
that remain to be stepped over (the regex engine resumes at `match.end()`);
`pw` records whether the previous character was a word character (for the
leading `\b`; `false` at the start of the text).  At a position with
`skip = 0` and `pw = false`, a matching attempt is made. -/
def finditerAux : Str → Nat → Nat → Bool → List (Nat × Str)
  | [], _, _, _ => []
  | c :: cs, i, skip + 1, _ => finditerAux cs (i + 1) skip (isWordChar c)
  | c :: cs, i, 0, pw =>
    if pw then finditerAux cs (i + 1) 0 (isWordChar c)
    else
      match tagFrom (c :: cs) with
      | some (m, _) => (i, m) :: finditerAux cs (i + 1) (m.length - 1) (isWordChar c)
      | none => finditerAux cs (i + 1) 0 (isWordChar c)

/-- `TAG_PATTERN.finditer(text)`: every match of the tag pattern in `text`,
as `(match.start(), match.group(0))` pairs in scan order.  Since the whole
pattern sits inside the capture group, `match.group(0) = match.group(1)`. -/
def finditer (text : Str) : List (Nat × Str) :=
  finditerAux text 0 0 false

example : finditer "01/AC501".toList = [(0, "01/AC501".toList)] := by decide

example : finditer "see detail 01/AC501 for more".toList
    = [(11, "01/AC501".toList)] := by decide

example : finditer "03/ac602".toList = [(0, "03/ac602".toList)] := by decide

example : finditer "001/AC501".toList = [] := by decide

example : finditer "01/A501".toList = [] := by decide

example : finditer "01/AC5012".toList = [(0, "01/AC5012".toList)] := by decide

example : finditer "01/AC50123".toList = [] := by decide

example : finditer "01/AC501 then 01/AC501 and 03/AC602".toList
    = [(0, "01/AC501".toList), (14, "01/AC501".toList), (27, "03/AC602".toList)] := by
  decide

theorem okBefore_nonempty (c : Char) (pre' : Str) (pw : Bool)
    (h : okBefore pw (c :: pre')) :
    ∃ ch, (c :: pre').getLast? = some ch ∧ isWordChar ch = false := by
  rcases hl : (c :: pre').getLast? with _ | ch
  · rw [List.getLast?_eq_getElem?] at hl
    have hlen : (c :: pre').length - 1 < (c :: pre').length := by simp
    rw [List.getElem?_eq_getElem hlen] at hl
    exact absurd hl (by simp)
  · refine ⟨ch, rfl, ?_⟩
    unfold okBefore at h
    rw [hl] at h
    exact h

/-- Lifts a scan fact over the tail of the text to the whole text: the
scanner's flag for the tail is exactly the word-character status of the
consumed head. -/
theorem sound_lift (c : Char) (cs : Str) (i : Nat) (pw : Bool) (j : Nat) (m : Str)
    (H : ∃ pre post, cs = pre ++ m ++ post ∧ j = (i + 1) + pre.length ∧
      specCore m = true ∧ okBefore (isWordChar c) pre ∧ okAfter post) :
    ∃ pre post, c :: cs = pre ++ m ++ post ∧ j = i + pre.length ∧
      specCore m = true ∧ okBefore pw pre ∧ okAfter post := by
  obtain ⟨pre', post, hs, hj, hcore, hb, ha⟩ := H
  refine ⟨c :: pre', post, by simp [hs], by simp [hj]; omega, hcore,
    okBefore_cons _ _ _ hb, ha⟩

/-- Soundness of the scanner: every reported match really sits at the
reported offset, has the token shape, and is word-boundary delimited. -/
theorem finditerAux_sound (s : Str) : ∀ i skip pw j m,
    (j, m) ∈ finditerAux s i skip pw →
    ∃ pre post, s = pre ++ m ++ post ∧ j = i + pre.length ∧ specCore m = true ∧
      okBefore pw pre ∧ okAfter post := by
  induction s with
  | nil => intro i skip pw j m h; simp [finditerAux] at h
  | cons c cs ih =>
    intro i skip pw j m h
    match skip with
    | k + 1 =>
      simp only [finditerAux] at h
      exact sound_lift c cs i pw j m (ih (i + 1) k (isWordChar c) j m h)
    | 0 =>
      cases pw with
      | true =>
        simp only [finditerAux, if_pos] at h
        exact sound_lift c cs i true j m (ih (i + 1) 0 (isWordChar c) j m h)
      | false =>
        simp only [finditerAux, Bool.false_eq_true, if_false] at h
        rcases htf : tagFrom (c :: cs) with _ | ⟨m', rest'⟩
        · rw [htf] at h
          exact sound_lift c cs i false j m (ih (i + 1) 0 (isWordChar c) j m h)
        · rw [htf] at h
          rcases List.mem_cons.mp h with hhead | htail
          · simp only [Prod.mk.injEq] at hhead
            obtain ⟨hj, hm⟩ := hhead
            subst hj; subst hm
            obtain ⟨hsplit, hcore, hafter⟩ := tagFrom_sound _ _ _ htf
            exact ⟨[], rest', by simpa using hsplit, by simp, hcore,
              by simp [okBefore], hafter⟩
          · exact sound_lift c cs i false j m
              (ih (i + 1) (m'.length - 1) (isWordChar c) j m htail)

/-- Completeness of the scanner: every word-boundary-delimited token in the
text is reported.  The hypotheses say that the text decomposes around the
token `m`, that the scanner still has `skip` characters of a previous match
to step over (all inside `pre`), and that the boundary characters are
non-word.  The key fact making this true is that a reported match cannot
overlap a later boundary-delimited token: the only non-word character inside
a match is the slash at offset 2, and the character right after the slash is
a letter, never the digit a token starts with. -/
theorem finditerAux_complete (pre : Str) : ∀ (s : Str) (i skip : Nat) (pw : Bool)
    (m post : Str), s = pre ++ m ++ post → specCore m = true → okBefore pw pre →
    okAfter post → skip ≤ pre.length →
    (i + pre.length, m) ∈ finditerAux s i skip pw := by
  induction pre with
  | nil =>
    intro s i skip pw m post hs hm hb ha hskip
    have hskip0 : skip = 0 := Nat.le_zero.mp hskip
    have hpw : pw = false := by simpa [okBefore] using hb
    subst hskip0; subst hpw; subst hs
    have htf := tagFrom_complete m post hm ha
    rcases m with _ | ⟨m0, mrest⟩
    · exact absurd hm (by simp [specCore])
    · simp only [List.nil_append, List.cons_append] at htf ⊢
      simp only [finditerAux, Bool.false_eq_true, if_false, htf, List.length_nil,
        Nat.add_zero]
      exact List.mem_cons_self _ _
  | cons c pre' ih =>
    intro s i skip pw m post hs hm hb ha hskip
    subst hs
    have hb' : okBefore (isWordChar c) pre' := okBefore_of_cons _ _ _ hb
    have harith : i + (c :: pre').length = (i + 1) + pre'.length := by simp; omega
    rw [harith]
    match skip with
    | k + 1 =>
      simp only [List.cons_append, finditerAux]
      exact ih _ (i + 1) k (isWordChar c) m post rfl hm hb' ha
        (by simp at hskip; omega)
    | 0 =>
      cases pw with
      | true =>
        simp only [List.cons_append, finditerAux, if_pos]
        exact ih _ (i + 1) 0 (isWordChar c) m post rfl hm hb' ha (Nat.zero_le _)
      | false =>
        simp only [List.cons_append, finditerAux, Bool.false_eq_true, if_false]
        rcases htf : tagFrom (c :: (pre' ++ m ++ post)) with _ | ⟨m', rest'⟩
        · exact ih _ (i + 1) 0 (isWordChar c) m post rfl hm hb' ha (Nat.zero_le _)
        · -- a match was reported starting inside `pre`; it cannot reach `m`
          obtain ⟨hsplit, hcore', hafter'⟩ := tagFrom_sound _ _ _ htf
          have hle : m'.length ≤ (c :: pre').length := by
            by_contra hlt
            push_neg at hlt
            obtain ⟨ch, hch, hchw⟩ := okBefore_nonempty c pre' false hb
            have hk0lt : (c :: pre').length - 1 < (c :: pre').length := by simp
            have hk0m' : (c :: pre').length - 1 < m'.length := by omega
            -- the boundary character before `m`, read through both splits
            have hs1 : (c :: (pre' ++ m ++ post))[(c :: pre').length - 1]?
                = some ch := by
              have : c :: (pre' ++ m ++ post) = (c :: pre') ++ (m ++ post) := by simp
              rw [this, List.getElem?_append_left hk0lt,
                ← List.getLast?_eq_getElem?]
              exact hch
            have hs2 : (c :: (pre' ++ m ++ post))[(c :: pre').length - 1]?
                = m'[(c :: pre').length - 1]? := by
              rw [hsplit, List.getElem?_append_left hk0m']
            have hm'ch : m'[(c :: pre').length - 1]? = some ch := by
              rw [← hs2]; exact hs1
            obtain ⟨hwords, _, ⟨ch3, hch3, hch3a⟩⟩ := specCore_chars m' hcore'
            obtain ⟨_, ⟨m0, hm0, hm0d⟩, _⟩ := specCore_chars m hm
            have hk0 : (c :: pre').length - 1 = 2 := by
              by_contra hk0
              exact absurd (hwords _ _ hm'ch hk0) (by simp [hchw])
            -- so the slash sits right before `m`, and a letter right after it
            have hpre3 : (c :: pre').length = 3 := by omega
            have h3m' : (c :: (pre' ++ m ++ post))[3]? = some ch3 := by
              rw [hsplit, List.getElem?_append_left (by omega : 3 < m'.length)]
              exact hch3
            have hmlen : 0 < m.length := by
              rcases specCore_length m hm with hl8 | hl8 <;> omega
            have h3m : (c :: (pre' ++ m ++ post))[3]? = some m0 := by
              have heq : c :: (pre' ++ m ++ post) = (c :: pre') ++ (m ++ post) := by
                simp
              rw [heq, List.getElem?_append_right (by omega), hpre3]
              simp only [Nat.sub_self]
              rw [List.getElem?_append_left hmlen]
              exact hm0
            rw [h3m'] at h3m
            have : ch3 = m0 := by simpa using h3m
            subst this
            exact digit_and_alpha_absurd ch3 hm0d hch3a
          apply List.mem_cons_of_mem
          exact ih _ (i + 1) (m'.length - 1) (isWordChar c) m post rfl hm hb' ha
            (by simp at hle; omega)

/-- `finditer` reports exactly the word-boundary-delimited occurrences of the
token shape `\d{2}/[A-Z]{2}\d{3,4}` (case-insensitive), each at its start
offset. -/
theorem finditer_iff (t : Str) (j : Nat) (m : Str) :
    (j, m) ∈ finditer t ↔
      ∃ pre post, t = pre ++ m ++ post ∧ j = pre.length ∧ specCore m = true ∧
        okBefore false pre ∧ okAfter post := by
  constructor
  · intro h
    have := finditerAux_sound t 0 0 false j m h
    simpa using this
  · rintro ⟨pre, post, hs, hj, hm, hb, ha⟩
    subst hj
    have := finditerAux_complete pre t 0 0 false m post hs hm hb ha (Nat.zero_le _)
    simpa using this

/-!
## Arithmetic facts about the ASCII character classifiers
-/

theorem toNat_ofNat_small (n : Nat) (h : n < 55296) : (Char.ofNat n).toNat = n := by
  rw [Char.ofNat, dif_pos (Or.inl h)]
  simp [Char.ofNatAux, Char.toNat, UInt32.toNat]

theorem lower_toNat (c : Char) (h : c.isLower = true) :
    97 ≤ c.toNat ∧ c.toNat ≤ 122 := by
  simp only [Char.isLower, Bool.and_eq_true, decide_eq_true_eq] at h
  obtain ⟨h1, h2⟩ := h
  simp only [UInt32.le_def, BitVec.le_def] at h1 h2
  have e5 : (UInt32.toBitVec 97).toNat = 97 := rfl
  have e6 : (UInt32.toBitVec 122).toNat = 122 := rfl
  simp only [Char.toNat, UInt32.toNat]
  omega

theorem upper_toNat (c : Char) (h : c.isUpper = true) :
    65 ≤ c.toNat ∧ c.toNat ≤ 90 := by
  simp only [Char.isUpper, Bool.and_eq_true, decide_eq_true_eq] at h
  obtain ⟨h1, h2⟩ := h
  simp only [UInt32.le_def, BitVec.le_def] at h1 h2
  have e5 : (UInt32.toBitVec 65).toNat = 65 := rfl
  have e6 : (UInt32.toBitVec 90).toNat = 90 := rfl
  simp only [Char.toNat, UInt32.toNat]
  omega

theorem digit_toNat (c : Char) (h : c.isDigit = true) :
    48 ≤ c.toNat ∧ c.toNat ≤ 57 := by
  simp only [Char.isDigit, Bool.and_eq_true, decide_eq_true_eq] at h
  obtain ⟨h1, h2⟩ := h
  simp only [UInt32.le_def, BitVec.le_def] at h1 h2
  have e5 : (UInt32.toBitVec 48).toNat = 48 := rfl
  have e6 : (UInt32.toBitVec 57).toNat = 57 := rfl
  simp only [Char.toNat, UInt32.toNat]
  omega

theorem isUpper_of_toNat (c : Char) (h1 : 65 ≤ c.toNat) (h2 : c.toNat ≤ 90) :
    c.isUpper = true := by
  simp only [Char.isUpper, Bool.and_eq_true, decide_eq_true_eq]
  simp only [Char.toNat, UInt32.toNat] at h1 h2
  have e5 : (UInt32.toBitVec 65).toNat = 65 := rfl
  have e6 : (UInt32.toBitVec 90).toNat = 90 := rfl
  constructor <;> simp only [UInt32.le_def, BitVec.le_def] <;> omega

theorem isLower_false_of_toNat (c : Char) (h : c.toNat < 97) : c.isLower = false := by
  cases hl : c.isLower
  · rfl
  · obtain ⟨h1, _⟩ := lower_toNat c hl
    omega

theorem toUpper_of_lower (c : Char) (h : c.isLower = true) :
    (c.toUpper).toNat = c.toNat - 32 := by
  obtain ⟨h1, h2⟩ := lower_toNat c h
  unfold Char.toUpper
  rw [if_pos ⟨by omega, by omega⟩]
  exact toNat_ofNat_small _ (by omega)

theorem toUpper_of_small (c : Char) (h : c.toNat < 97) : c.toUpper = c := by
  unfold Char.toUpper
  rw [if_neg]
  intro hcon
  omega

/-- `str.upper` leaves digits unchanged. -/
theorem upperChar_digit (c : Char) (h : c.isDigit = true) : upperChar c = c := by
  obtain ⟨_, h2⟩ := digit_toNat c h
  exact toUpper_of_small c (by omega)

/-- `str.upper` keeps letters letters (in fact upper-case ones). -/
theorem upperChar_alpha (c : Char) (h : c.isAlpha = true) :
    (upperChar c).isUpper = true := by
  simp only [Char.isAlpha, Bool.or_eq_true] at h
  rcases h with h | h
  · obtain ⟨h1, h2⟩ := upper_toNat c h
    rw [upperChar, toUpper_of_small c (by omega)]
    exact h
  · obtain ⟨h1, h2⟩ := lower_toNat c h
    have ht := toUpper_of_lower c h
    refine isUpper_of_toNat _ ?_ ?_ <;> simp only [upperChar] <;> omega

/-- After `str.upper`, a digit, slash or letter is never lower-case. -/
theorem upperChar_not_lower (c : Char)
    (h : c.isDigit = true ∨ c = '/' ∨ c.isAlpha = true) :
    (upperChar c).isLower = false := by
  rcases h with h | h | h
  · obtain ⟨_, h2⟩ := digit_toNat c h
    rw [upperChar_digit c h]
    exact isLower_false_of_toNat c (by omega)
  · subst h; decide
  · have hu := upperChar_alpha c h
    obtain ⟨_, h2⟩ := upper_toNat _ hu
    exact isLower_false_of_toNat _ (by omega)

/-- The normalized (`str.upper`) form of a matched token still has the token
shape, and contains no lower-case character. -/
theorem specCore_upperStr (m : Str) (h : specCore m = true) :
    specCore (upperStr m) = true ∧ (upperStr m).all (fun c => !c.isLower) = true := by
  unfold specCore at h
  split at h
  · rename_i c1 c2 c3 a1 a2 d1 d2 d3
    simp only [Bool.and_eq_true, beq_iff_eq] at h
    obtain ⟨⟨⟨⟨⟨⟨⟨h1, h2⟩, h3⟩, h4⟩, h5⟩, h6⟩, h7⟩, h8⟩ := h
    subst h3
    constructor
    · simp only [upperStr, List.map_cons, List.map_nil, specCore,
        upperChar_digit _ h1, upperChar_digit _ h2, upperChar_digit _ h6,
        upperChar_digit _ h7, upperChar_digit _ h8]
      have e : upperChar '/' = '/' := by decide
      simp only [e, isTagLetter, Char.isAlpha,
        upperChar_alpha _ h4, upperChar_alpha _ h5, h1, h2, h6, h7, h8]
      simp
    · simp only [upperStr, List.map_cons, List.map_nil, List.all_cons, List.all_nil,
        Bool.and_eq_true, Bool.not_eq_eq_eq_not, Bool.not_true]
      refine ⟨upperChar_not_lower _ (Or.inl h1), upperChar_not_lower _ (Or.inl h2),
        upperChar_not_lower _ (Or.inr (Or.inl rfl)),
        upperChar_not_lower _ (Or.inr (Or.inr h4)),
        upperChar_not_lower _ (Or.inr (Or.inr h5)),
        upperChar_not_lower _ (Or.inl h6), upperChar_not_lower _ (Or.inl h7),
        upperChar_not_lower _ (Or.inl h8), trivial⟩
  · rename_i c1 c2 c3 a1 a2 d1 d2 d3 d4
    simp only [Bool.and_eq_true, beq_iff_eq] at h
    obtain ⟨⟨⟨⟨⟨⟨⟨⟨h1, h2⟩, h3⟩, h4⟩, h5⟩, h6⟩, h7⟩, h8⟩, h9⟩ := h
    subst h3
    constructor
    · simp only [upperStr, List.map_cons, List.map_nil, specCore,
        upperChar_digit _ h1, upperChar_digit _ h2, upperChar_digit _ h6,
        upperChar_digit _ h7, upperChar_digit _ h8, upperChar_digit _ h9]
      have e : upperChar '/' = '/' := by decide
      simp only [e, isTagLetter, Char.isAlpha,
        upperChar_alpha _ h4, upperChar_alpha _ h5, h1, h2, h6, h7, h8, h9]
      simp
    · simp only [upperStr, List.map_cons, List.map_nil, List.all_cons, List.all_nil,
        Bool.and_eq_true, Bool.not_eq_eq_eq_not, Bool.not_true]
      refine ⟨upperChar_not_lower _ (Or.inl h1), upperChar_not_lower _ (Or.inl h2),
        upperChar_not_lower _ (Or.inr (Or.inl rfl)),
        upperChar_not_lower _ (Or.inr (Or.inr h4)),
        upperChar_not_lower _ (Or.inr (Or.inr h5)),
        upperChar_not_lower _ (Or.inl h6), upperChar_not_lower _ (Or.inl h7),
        upperChar_not_lower _ (Or.inl h8), upperChar_not_lower _ (Or.inl h9), trivial⟩
  · exact absurd h (by simp)

/-!
## `extract_snippet` and the Python string helpers it uses
-/

/-- `str.strip()`: remove leading and trailing whitespace. -/
def pyStrip (s : Str) : Str :=
  ((s.dropWhile isPySpace).reverse.dropWhile isPySpace).reverse

/-- Worker for `str.split()` (no separator): `acc` holds the characters of
the token currently being read, in reverse. -/
def pySplitAux : Str → Str → List Str
  | [], acc => if acc = [] then [] else [acc.reverse]
  | c :: cs, acc =>
    if isPySpace c then
      if acc = [] then pySplitAux cs [] else acc.reverse :: pySplitAux cs []
    else pySplitAux cs (c :: acc)

/-- `str.split()` with no arguments: split on runs of whitespace, discarding
empty strings. -/
def pySplit (s : Str) : List Str :=
  pySplitAux s []

example : pySplit "  a\tbb\n\nccc ".toList = ["a".toList, "bb".toList, "ccc".toList] := by
  decide

/-- `extract_snippet(text, start, end, context_chars)` from the script:
slice a window of `context_chars` characters around the match, strip it,
collapse internal whitespace via `' '.join(snippet.split())`, and mark
truncation on either side with `"..."`.  (In the script `context_chars`
defaults to 50; callers here pass it explicitly.)  Natural-number
subtraction gives exactly Python's `max(0, start - context_chars)`. -/
def extract_snippet (text : Str) (start finish context_chars : Nat) : Str :=
  let snippet_start := start - context_chars
  let snippet_end := min (finish + context_chars) text.length
  let window := (text.drop snippet_start).take (snippet_end - snippet_start)
  let snippet0 := List.intercalate [' '] (pySplit (pyStrip window))
  let snippet1 := if 0 < snippet_start then "...".toList ++ snippet0 else snippet0
  if snippet_end < text.length then snippet1 ++ "...".toList else snippet1

example :
    extract_snippet "alpha  01/AC501\tbeta".toList 7 15 50
      = "alpha 01/AC501 beta".toList := by decide

example :
    extract_snippet "x".toList 0 1 50 = "x".toList := by decide

/-- Splitting an all-whitespace string flushes at most the pending token. -/
theorem pySplitAux_spaces (trail : Str) (htrail : ∀ c ∈ trail, isPySpace c = true) :
    ∀ acc, pySplitAux trail acc = if acc = [] then [] else [acc.reverse] := by
  induction trail with
  | nil => intro acc; rfl
  | cons c cs ih =>
    intro acc
    have hc : isPySpace c = true := htrail c (by simp)
    have ihs := ih (fun d hd => htrail d (by simp [hd]))
    simp only [pySplitAux, hc, if_pos]
    by_cases hacc : acc = []
    · simp [hacc, ihs]
    · simp [hacc, ihs]

/-- Trailing whitespace never changes the split. -/
theorem pySplitAux_append_spaces (w trail : Str)
    (htrail : ∀ c ∈ trail, isPySpace c = true) :
    ∀ acc, pySplitAux (w ++ trail) acc = pySplitAux w acc := by
  induction w with
  | nil =>
    intro acc
    simp only [List.nil_append]
    rw [pySplitAux_spaces trail htrail acc]
    rfl
  | cons c cs ih =>
    intro acc
    simp only [List.cons_append, pySplitAux]
    by_cases hc : isPySpace c
    · simp only [hc, if_pos]
      by_cases hacc : acc = [] <;> simp [hacc, ih]
    · simp only [hc]
      simp [ih]

/-- Leading whitespace never changes the split. -/
theorem pySplit_dropWhile (s : Str) :
    pySplit (s.dropWhile isPySpace) = pySplit s := by
  induction s with
  | nil => rfl
  | cons c cs ih =>
    by_cases hc : isPySpace c
    · rw [List.dropWhile_cons_of_pos hc]
      rw [ih]
      simp [pySplit, pySplitAux, hc]
    · rw [List.dropWhile_cons_of_neg hc]

/-- `str.strip()` before `str.split()` is redundant: `split` already ignores
boundary whitespace. -/
theorem pySplit_pyStrip (s : Str) : pySplit (pyStrip s) = pySplit s := by
  unfold pyStrip
  set u := s.dropWhile isPySpace with hu
  have hdecomp : u = (u.reverse.dropWhile isPySpace).reverse
      ++ (u.reverse.takeWhile isPySpace).reverse := by
    conv_lhs => rw [← List.reverse_reverse u,
      ← List.takeWhile_append_dropWhile (p := isPySpace) (l := u.reverse)]
    rw [List.reverse_append]
  have htrail : ∀ c ∈ (u.reverse.takeWhile isPySpace).reverse, isPySpace c = true := by
    intro c hc
    rw [List.mem_reverse] at hc
    exact List.mem_takeWhile_imp hc
  calc pySplit (u.reverse.dropWhile isPySpace).reverse
      = pySplit ((u.reverse.dropWhile isPySpace).reverse
          ++ (u.reverse.takeWhile isPySpace).reverse) :=
        (pySplitAux_append_spaces _ _ htrail []).symm
    _ = pySplit u := by rw [← hdecomp]
    _ = pySplit s := pySplit_dropWhile s

/-- Every token produced by `str.split()` is nonempty and free of
whitespace: internal runs of whitespace are collapsed away entirely. -/
theorem pySplitAux_tokens (s : Str) : ∀ acc, (∀ c ∈ acc, isPySpace c = false) →
    ∀ tok ∈ pySplitAux s acc, tok ≠ [] ∧ ∀ c ∈ tok, isPySpace c = false := by
  induction s with
  | nil =>
    intro acc hacc tok htok
    simp only [pySplitAux] at htok
    by_cases h : acc = []
    · simp [h] at htok
    · simp only [h, if_neg, if_false] at htok
      simp only [List.mem_singleton] at htok
      subst htok
      refine ⟨by simpa using h, ?_⟩
      intro c hc
      exact hacc c (by simpa using hc)
  | cons c cs ih =>
    intro acc hacc tok htok
    simp only [pySplitAux] at htok
    by_cases hc : isPySpace c
    · simp only [hc, if_pos] at htok
      by_cases h : acc = []
      · simp only [h, if_pos] at htok
        exact ih [] (by simp) tok htok
      · simp only [h, if_neg, if_false] at htok
        rcases List.mem_cons.mp htok with rfl | htok2
        · refine ⟨by simpa using h, ?_⟩
          intro d hd
          exact hacc d (by simpa using hd)
        · exact ih [] (by simp) tok htok2
    · simp only [hc, if_neg, if_false] at htok
      refine ih (c :: acc) ?_ tok htok
      intro d hd
      rcases List.mem_cons.mp hd with rfl | hd2
      · simpa using hc
      · exact hacc d hd2

theorem pySplit_tokens (s : Str) :
    ∀ tok ∈ pySplit s, tok ≠ [] ∧ ∀ c ∈ tok, isPySpace c = false :=
  pySplitAux_tokens s [] (by simp)

/-!
## The PDF collaborator model and `extract_tags_from_pdf`

The external library is a black box: a document is its list of pages, and a
page provides `get_text("text")` and `search_for(needle)`, either of which
may fail (a raised exception, propagated by the script).  The filesystem is
a black box too: whether a path exists, what document opening it yields,
and whether an output path is writable.
-/

/-- A `fitz.Rect` returned by `Page.search_for`. -/
structure Rectangle where
  x0 : ℚ
  y0 : ℚ
  x1 : ℚ
  y1 : ℚ
deriving DecidableEq

/-- The exceptions the script can see. -/
inductive PdfError
  | fileNotFound (msg : Str)
  | libraryError (msg : Str)
  | writeError (msg : Str)
deriving DecidableEq

/-- One page of an open document: the two collaborator calls the script
makes on it.  A `.error` result models the call raising an exception. -/
structure Page where
  getText : Except PdfError Str
  searchFor : Str → Except PdfError (List Rectangle)

/-- An open `fitz` document: random access to its pages; `len(doc)` is the
page count. -/
structure Document where
  pages : List Page

/-- The world outside the script: file existence, document opening, and
output writability. -/
structure Env where
  fileExists : Str → Bool
  openDoc : Str → Except PdfError Document
  writable : Str → Bool

/-- `round(x, 2)` on a bbox coordinate (modelled over `ℚ`). -/
def round2 (q : ℚ) : ℚ := (round (q * 100) : ℤ) / 100

/-- A serialized bounding box, coordinates rounded to 2 decimals. -/
structure BBox where
  x0 : ℚ
  y0 : ℚ
  x1 : ℚ
  y1 : ℚ
deriving DecidableEq

/-- One located instance of a tag. -/
structure Occurrence where
  page : Nat
  snippet : Str
  bbox : BBox
deriving DecidableEq

/-- The output value: `pdf_file`, `total_pages`, `total_tags` and the
insertion-ordered `tags` mapping (a Python dict preserves insertion
order, so it is modelled as an association list). -/
structure Index where
  pdf_file : Str
  total_pages : Nat
  total_tags : Nat
  tags : List (Str × List Occurrence)
deriving DecidableEq

/-- The two mutable accumulators of the scan loop. -/
structure ScanState where
  tag_occurrences : List (Str × List Occurrence)
  all_tags : List Str

/-- `all_tags.add(tag)`: a Python `set` only grows on a new element (only
its size is consumed, so insertion order is irrelevant; keeping a
duplicate-free list makes `len` the list length). -/
def addTag (l : List Str) (t : Str) : List Str :=
  if t ∈ l then l else l ++ [t]

/-- `tag_occurrences.setdefault(tag, []).append(occ)` in the script's
spelled-out form: create the key at the end on first use, then append. -/
def addOcc (m : List (Str × List Occurrence)) (tag : Str) (o : Occurrence) :
    List (Str × List Occurrence) :=
  match m with
  | [] => [(tag, [o])]
  | (k, v) :: rest =>
    if k = tag then (k, v ++ [o]) :: rest else (k, v) :: addOcc rest tag o

/-- The occurrence record built for one rectangle of one match. -/
def mkOccurrence (page_num : Nat) (text : Str) (start finish : Nat)
    (rect : Rectangle) : Occurrence :=
  { page := page_num + 1
    snippet := extract_snippet text start finish 50
    bbox := { x0 := round2 rect.x0, y0 := round2 rect.y0,
              x1 := round2 rect.x1, y1 := round2 rect.y1 } }

/-- The body of the inner `for match in matches` loop: normalize the tag,
record it in the tag set, search the page for the matched text, and append
one occurrence per returned rectangle. -/
def processMatch (page_num : Nat) (page : Page) (text : Str) (st : ScanState)
    (start : Nat) (m : Str) : Except PdfError ScanState :=
  let tag := upperStr m
  let st1 : ScanState := { st with all_tags := addTag st.all_tags tag }
  match page.searchFor m with
  | .error e => .error e
  | .ok rects =>
    let newOccs := rects.foldl
      (fun acc rect =>
        addOcc acc tag (mkOccurrence page_num text start (start + m.length) rect))
      st1.tag_occurrences
    .ok { st1 with tag_occurrences := newOccs }

/-- Folds `processMatch` over the matches of one page, propagating a raised
exception. -/
def processMatches (page_num : Nat) (page : Page) (text : Str) :
    List (Nat × Str) → ScanState → Except PdfError ScanState
  | [], st => .ok st
  | (i, m) :: ms, st =>
    match processMatch page_num page text st i m with
    | .error e => .error e
    | .ok st2 => processMatches page_num page text ms st2

/-- The `for page_num in range(num_pages)` loop. -/
def processPages : List Page → Nat → ScanState → Except PdfError ScanState
  | [], _, st => .ok st
  | p :: ps, page_num, st =>
    match p.getText with
    | .error e => .error e
    | .ok text =>
      match processMatches page_num p text (finditer text) st with
      | .error e => .error e
      | .ok st2 => processPages ps (page_num + 1) st2

/-- Resource events on the document handle. -/
inductive Ev
  | openEv
  | closeEv
deriving DecidableEq

/-- `Path(p).name`: the final path component (paths here carry no trailing
slash). -/
def pathName (p : Str) : Str :=
  (p.reverse.takeWhile (fun c => !(c == '/'))).reverse

/-- `extract_tags_from_pdf(pdf_path)`: the full scan.  Returns the built
index or the raised exception, together with the trace of open/close events
on the document handle.  Note the source has no `with`/`finally` around the
page loop: `doc.close()` is only reached when no exception was raised. -/
def extract_tags_from_pdf (env : Env) (pdf_path : Str) :
    Except PdfError Index × List Ev :=
  if env.fileExists pdf_path then
    match env.openDoc pdf_path with
    | .error e => (.error e, [])
    | .ok doc =>
      let num_pages := doc.pages.length
      match processPages doc.pages 0 ⟨[], []⟩ with
      | .error e => (.error e, [Ev.openEv])
      | .ok st =>
        (.ok { pdf_file := pathName pdf_path
               total_pages := num_pages
               total_tags := st.all_tags.length
               tags := st.tag_occurrences },
         [Ev.openEv, Ev.closeEv])
  else
    (.error (.fileNotFound ("PDF file not found: ".toList ++ pdf_path)), [])

/-- `save_index(index, output_path)`: one atomic JSON write, failing when
the output path is not writable. -/
def save_index (env : Env) (index : Index) (output_path : Str) :
    Except PdfError (Str × Index) :=
  if env.writable output_path then .ok (output_path, index)
  else .error (.writeError ("could not write ".toList ++ output_path))

/-- `str(e)` for the error banner. -/
def errMessage : PdfError → Str
  | .fileNotFound m => m
  | .libraryError m => m
  | .writeError m => m

/-- The `Error: <message>` line `main` prints to stderr. -/
def errorLine (e : PdfError) : Str := "Error: ".toList ++ errMessage e

/-- Observable outcome of one run of the tool. -/
structure RunResult where
  exitCode : Nat
  stderrLines : List Str
  written : List (Str × Index)
deriving DecidableEq

/-- `main()` with parsed arguments: run the extraction, save the index, and
on any exception print `Error: <message>` to stderr and exit non-zero. -/
def main (env : Env) (pdf_file output : Str) : RunResult :=
  match extract_tags_from_pdf env pdf_file with
  | (.error e, _) => { exitCode := 1, stderrLines := [errorLine e], written := [] }
  | (.ok index, _) =>
    match save_index env index output with
    | .error e => { exitCode := 1, stderrLines := [errorLine e], written := [] }
    | .ok w => { exitCode := 0, stderrLines := [], written := [w] }

/-!
## Invariants of the accumulators
-/

/-- The keys of the `tag_occurrences` dict, in insertion order. -/
def tagKeys (m : List (Str × List Occurrence)) : List Str := m.map Prod.fst

theorem mem_addTag (l : List Str) (t x : Str) :
    x ∈ addTag l t ↔ x ∈ l ∨ x = t := by
  unfold addTag
  split
  · rename_i ht
    constructor
    · exact Or.inl
    · rintro (h | rfl)
      · exact h
      · exact ht
  · simp [List.mem_append]

theorem addTag_nodup (l : List Str) (t : Str) (h : l.Nodup) : (addTag l t).Nodup := by
  unfold addTag
  split
  · exact h
  · rename_i ht
    simp [List.nodup_append, h, ht]

theorem tagKeys_addOcc (m : List (Str × List Occurrence)) (t : Str) (o : Occurrence) :
    tagKeys (addOcc m t o)
      = if t ∈ tagKeys m then tagKeys m else tagKeys m ++ [t] := by
  induction m with
  | nil => simp [addOcc, tagKeys]
  | cons p rest ih =>
    obtain ⟨k, v⟩ := p
    by_cases hk : k = t
    · subst hk
      simp [addOcc, tagKeys]
    · have hmem : (t ∈ tagKeys ((k, v) :: rest)) = (t ∈ tagKeys rest) := by
        simp only [tagKeys, List.map_cons, List.mem_cons]
        simp [Ne.symm hk]
      simp only [addOcc, hk, if_neg, if_false]
      simp only [tagKeys, List.map_cons] at ih ⊢
      rw [ih]
      by_cases hm : t ∈ List.map Prod.fst rest
      · simp only [hm, if_pos, hmem]
        simp [tagKeys, hm]
      · simp only [hm, if_false]
        rw [if_neg (by simp [hm, Ne.symm hk])]
        simp

theorem mem_tagKeys_addOcc (m : List (Str × List Occurrence)) (t x : Str)
    (o : Occurrence) : x ∈ tagKeys (addOcc m t o) ↔ x ∈ tagKeys m ∨ x = t := by
  rw [tagKeys_addOcc]
  split
  · rename_i ht
    constructor
    · exact Or.inl
    · rintro (h | rfl)
      · exact h
      · exact ht
  · simp [List.mem_append]

theorem tagKeys_addOcc_nodup (m : List (Str × List Occurrence)) (t : Str)
    (o : Occurrence) (h : (tagKeys m).Nodup) : (tagKeys (addOcc m t o)).Nodup := by
  rw [tagKeys_addOcc]
  split
  · exact h
  · rename_i ht
    simp [List.nodup_append, h, ht]

theorem addOcc_prop {P : Str → Prop} {Q : Occurrence → Prop}
    (m : List (Str × List Occurrence)) (t : Str) (o : Occurrence)
    (hm : ∀ p ∈ m, P p.1 ∧ ∀ x ∈ p.2, Q x) (ht : P t) (ho : Q o) :
    ∀ p ∈ addOcc m t o, P p.1 ∧ ∀ x ∈ p.2, Q x := by
  induction m with
  | nil =>
    intro p hp
    simp only [addOcc, List.mem_singleton] at hp
    subst hp
    exact ⟨ht, by simpa using ho⟩
  | cons q rest ih =>
    obtain ⟨k, v⟩ := q
    intro p hp
    by_cases hk : k = t
    · subst hk
      simp only [addOcc, if_pos, List.mem_cons] at hp
      rcases hp with rfl | hp
      · obtain ⟨hP, hQ⟩ := hm (k, v) (by simp)
        refine ⟨hP, ?_⟩
        intro x hx
        rcases List.mem_append.mp hx with hx | hx
        · exact hQ x hx
        · rw [List.mem_singleton] at hx
          subst hx
          exact ho
      · exact hm p (List.mem_cons_of_mem _ hp)
    · simp only [addOcc, hk, if_neg, if_false, List.mem_cons] at hp
      rcases hp with rfl | hp
      · exact hm (k, v) (by simp)
      · exact ih (fun q hq => hm q (List.mem_cons_of_mem _ hq)) p hp

/-- The per-rectangle fold of one match: key membership. -/
theorem foldl_addOcc_mem (t : Str) (f : Rectangle → Occurrence) :
    ∀ (rects : List Rectangle) (acc : List (Str × List Occurrence)) (x : Str),
      x ∈ tagKeys (rects.foldl (fun a r => addOcc a t (f r)) acc) ↔
        x ∈ tagKeys acc ∨ (rects ≠ [] ∧ x = t) := by
  intro rects
  induction rects with
  | nil => intro acc x; simp
  | cons r rs ih =>
    intro acc x
    simp only [List.foldl_cons]
    rw [ih]
    rw [mem_tagKeys_addOcc]
    constructor
    · rintro ((h | rfl) | ⟨_, rfl⟩)
      · exact Or.inl h
      · exact Or.inr ⟨by simp, rfl⟩
      · exact Or.inr ⟨by simp, rfl⟩
    · rintro (h | ⟨_, rfl⟩)
      · exact Or.inl (Or.inl h)
      · exact Or.inl (Or.inr rfl)

theorem foldl_addOcc_nodup (t : Str) (f : Rectangle → Occurrence) :
    ∀ (rects : List Rectangle) (acc : List (Str × List Occurrence)),
      (tagKeys acc).Nodup →
      (tagKeys (rects.foldl (fun a r => addOcc a t (f r)) acc)).Nodup := by
  intro rects
  induction rects with
  | nil => intro acc h; exact h
  | cons r rs ih =>
    intro acc h
    simp only [List.foldl_cons]
    exact ih _ (tagKeys_addOcc_nodup _ _ _ h)

theorem foldl_addOcc_prop {P : Str → Prop} {Q : Occurrence → Prop}
    (t : Str) (f : Rectangle → Occurrence) :
    ∀ (rects : List Rectangle) (acc : List (Str × List Occurrence)),
      (∀ p ∈ acc, P p.1 ∧ ∀ x ∈ p.2, Q x) → P t → (∀ r ∈ rects, Q (f r)) →
      ∀ p ∈ rects.foldl (fun a r => addOcc a t (f r)) acc,
        P p.1 ∧ ∀ x ∈ p.2, Q x := by
  intro rects
  induction rects with
  | nil => intro acc hacc _ _ p hp; exact hacc p hp
  | cons r rs ih =>
    intro acc hacc ht hr p hp
    simp only [List.foldl_cons] at hp
    exact ih _ (addOcc_prop _ _ _ hacc ht (hr r (by simp))) ht
      (fun r2 hr2 => hr r2 (by simp [hr2])) p hp

/-- The dict/set relationship maintained by the scan loop: keys are distinct,
the tag set is distinct, and every dict key was recorded in the tag set. -/
def ScanInv (st : ScanState) : Prop :=
  (tagKeys st.tag_occurrences).Nodup ∧ st.all_tags.Nodup ∧
    ∀ x ∈ tagKeys st.tag_occurrences, x ∈ st.all_tags

theorem processMatch_scanInv (k : Nat) (page : Page) (text : Str) (st st' : ScanState)
    (i : Nat) (m : Str) (h : processMatch k page text st i m = .ok st')
    (hinv : ScanInv st) : ScanInv st' := by
  obtain ⟨h1, h2, h3⟩ := hinv
  unfold processMatch at h
  rcases hsf : page.searchFor m with e | rects <;> rw [hsf] at h
  · exact absurd h (by simp)
  · simp only [Except.ok.injEq] at h
    subst h
    refine ⟨foldl_addOcc_nodup _ _ _ _ h1, addTag_nodup _ _ h2, ?_⟩
    intro x hx
    rw [foldl_addOcc_mem] at hx
    rcases hx with hx | ⟨_, rfl⟩
    · exact (mem_addTag _ _ _).mpr (Or.inl (h3 x hx))
    · exact (mem_addTag _ _ _).mpr (Or.inr rfl)

theorem processMatch_scanInv_full (k : Nat) (page : Page) (text : Str)
    (st st' : ScanState) (i : Nat) (m : Str)
    (h : processMatch k page text st i m = .ok st')
    (hne : ∀ s l, page.searchFor s = .ok l → l ≠ [])
    (hfull : ∀ x ∈ st.all_tags, x ∈ tagKeys st.tag_occurrences) :
    ∀ x ∈ st'.all_tags, x ∈ tagKeys st'.tag_occurrences := by
  unfold processMatch at h
  rcases hsf : page.searchFor m with e | rects <;> rw [hsf] at h
  · exact absurd h (by simp)
  · simp only [Except.ok.injEq] at h
    subst h
    intro x hx
    simp only at hx
    rw [mem_addTag] at hx
    rw [foldl_addOcc_mem]
    rcases hx with hx | rfl
    · exact Or.inl (hfull x hx)
    · exact Or.inr ⟨hne m rects hsf, rfl⟩

theorem processMatches_scanInv (k : Nat) (page : Page) (text : Str) :
    ∀ (ms : List (Nat × Str)) (st st' : ScanState),
      processMatches k page text ms st = .ok st' → ScanInv st → ScanInv st' := by
  intro ms
  induction ms with
  | nil =>
    intro st st' h hinv
    simp only [processMatches, Except.ok.injEq] at h
    subst h; exact hinv
  | cons im ms ih =>
    obtain ⟨i, m⟩ := im
    intro st st' h hinv
    simp only [processMatches] at h
    rcases hpm : processMatch k page text st i m with e | st2 <;> rw [hpm] at h
    · exact absurd h (by simp)
    · exact ih st2 st' h (processMatch_scanInv k page text st st2 i m hpm hinv)

theorem processMatches_scanInv_full (k : Nat) (page : Page) (text : Str)
    (hne : ∀ s l, page.searchFor s = .ok l → l ≠ []) :
    ∀ (ms : List (Nat × Str)) (st st' : ScanState),
      processMatches k page text ms st = .ok st' →
      (∀ x ∈ st.all_tags, x ∈ tagKeys st.tag_occurrences) →
      ∀ x ∈ st'.all_tags, x ∈ tagKeys st'.tag_occurrences := by
  intro ms
  induction ms with
  | nil =>
    intro st st' h hfull
    simp only [processMatches, Except.ok.injEq] at h
    subst h; exact hfull
  | cons im ms ih =>
    obtain ⟨i, m⟩ := im
    intro st st' h hfull
    simp only [processMatches] at h
    rcases hpm : processMatch k page text st i m with e | st2 <;> rw [hpm] at h
    · exact absurd h (by simp)
    · exact ih st2 st' h
        (processMatch_scanInv_full k page text st st2 i m hpm hne hfull)

theorem processPages_scanInv :
    ∀ (ps : List Page) (k : Nat) (st st' : ScanState),
      processPages ps k st = .ok st' → ScanInv st → ScanInv st' := by
  intro ps
  induction ps with
  | nil =>
    intro k st st' h hinv
    simp only [processPages, Except.ok.injEq] at h
    subst h; exact hinv
  | cons p ps ih =>
    intro k st st' h hinv
    simp only [processPages] at h
    rcases hgt : p.getText with e | text <;> simp only [hgt] at h
    · exact absurd h (by simp)
    · rcases hpm : processMatches k p text (finditer text) st with e | st2 <;>
        simp only [hpm] at h
      · exact absurd h (by simp)
      · exact ih (k + 1) st2 st' h
          (processMatches_scanInv k p text (finditer text) st st2 hpm hinv)

theorem processPages_scanInv_full :
    ∀ (ps : List Page) (k : Nat) (st st' : ScanState),
      processPages ps k st = .ok st' →
      (∀ p ∈ ps, ∀ s l, p.searchFor s = .ok l → l ≠ []) →
      (∀ x ∈ st.all_tags, x ∈ tagKeys st.tag_occurrences) →
      ∀ x ∈ st'.all_tags, x ∈ tagKeys st'.tag_occurrences := by
  intro ps
  induction ps with
  | nil =>
    intro k st st' h _ hfull
    simp only [processPages, Except.ok.injEq] at h
    subst h; exact hfull
  | cons p ps ih =>
    intro k st st' h hne hfull
    simp only [processPages] at h
    rcases hgt : p.getText with e | text <;> simp only [hgt] at h
    · exact absurd h (by simp)
    · rcases hpm : processMatches k p text (finditer text) st with e | st2 <;>
        simp only [hpm] at h
      · exact absurd h (by simp)
      · refine ih (k + 1) st2 st' h (fun q hq => hne q (by simp [hq])) ?_
        exact processMatches_scanInv_full k p text
          (hne p (by simp)) (finditer text) st st2 hpm hfull

/-- Generic content invariant over one page's matches: `P` constrains the
keys created (always normalized match texts), `Q` the occurrence records. -/
theorem processMatches_prop {P : Str → Prop} {Q : Occurrence → Prop}
    (k : Nat) (page : Page) (text : Str) :
    ∀ (ms : List (Nat × Str)) (st st' : ScanState),
      processMatches k page text ms st = .ok st' →
      (∀ p ∈ st.tag_occurrences, P p.1 ∧ ∀ o ∈ p.2, Q o) →
      (∀ i m, (i, m) ∈ ms → P (upperStr m)) →
      (∀ i m rect, (i, m) ∈ ms → Q (mkOccurrence k text i (i + m.length) rect)) →
      ∀ p ∈ st'.tag_occurrences, P p.1 ∧ ∀ o ∈ p.2, Q o := by
  intro ms
  induction ms with
  | nil =>
    intro st st' h hst _ _
    simp only [processMatches, Except.ok.injEq] at h
    subst h; exact hst
  | cons im ms ih =>
    obtain ⟨i, m⟩ := im
    intro st st' h hst hP hQ
    simp only [processMatches] at h
    rcases hpm : processMatch k page text st i m with e | st2 <;> rw [hpm] at h
    · exact absurd h (by simp)
    · refine ih st2 st' h ?_ (fun i2 m2 hm2 => hP i2 m2 (by simp [hm2]))
        (fun i2 m2 r hm2 => hQ i2 m2 r (by simp [hm2]))
      unfold processMatch at hpm
      rcases hsf : page.searchFor m with e | rects <;> rw [hsf] at hpm
      · exact absurd hpm (by simp)
      · simp only [Except.ok.injEq] at hpm
        subst hpm
        exact foldl_addOcc_prop _ _ rects st.tag_occurrences hst
          (hP i m (by simp)) (fun r _ => hQ i m r (by simp))

/-- Page numbers recorded so far stay in range as the page loop advances. -/
theorem processPages_page_bound :
    ∀ (ps : List Page) (k : Nat) (st st' : ScanState),
      processPages ps k st = .ok st' →
      (∀ p ∈ st.tag_occurrences, ∀ o ∈ p.2, 1 ≤ o.page ∧ o.page ≤ k) →
      ∀ p ∈ st'.tag_occurrences, ∀ o ∈ p.2, 1 ≤ o.page ∧ o.page ≤ k + ps.length := by
  intro ps
  induction ps with
  | nil =>
    intro k st st' h hst
    simp only [processPages, Except.ok.injEq] at h
    subst h
    simpa using hst
  | cons p ps ih =>
    intro k st st' h hst
    simp only [processPages] at h
    rcases hgt : p.getText with e | text <;> simp only [hgt] at h
    · exact absurd h (by simp)
    · rcases hpm : processMatches k p text (finditer text) st with e | st2 <;>
        simp only [hpm] at h
      · exact absurd h (by simp)
      · have hst2 := processMatches_prop (P := fun _ => True)
          (Q := fun o => 1 ≤ o.page ∧ o.page ≤ k + 1) k p text (finditer text)
          st st2 hpm
          (fun q hq => ⟨trivial, fun o ho => by
            obtain ⟨h1, h2⟩ := (hst q hq) o ho
            exact ⟨h1, by omega⟩⟩)
          (fun _ _ _ => trivial)
          (fun i m rect _ => by simp [mkOccurrence])
        have := ih (k + 1) st2 st' h (fun q hq o ho => (hst2 q hq).2 o ho)
        intro q hq o ho
        obtain ⟨h1, h2⟩ := this q hq o ho
        exact ⟨h1, by simp only [List.length_cons]; omega⟩

/-- Every key ever created is the `upper()` of a pattern match, hence has the
token shape with no lower-case character. -/
theorem processPages_key_prop :
    ∀ (ps : List Page) (k : Nat) (st st' : ScanState),
      processPages ps k st = .ok st' →
      (∀ p ∈ st.tag_occurrences,
        specCore p.1 = true ∧ p.1.all (fun c => !c.isLower) = true) →
      ∀ p ∈ st'.tag_occurrences,
        specCore p.1 = true ∧ p.1.all (fun c => !c.isLower) = true := by
  intro ps
  induction ps with
  | nil =>
    intro k st st' h hst
    simp only [processPages, Except.ok.injEq] at h
    subst h
    exact hst
  | cons p ps ih =>
    intro k st st' h hst
    simp only [processPages] at h
    rcases hgt : p.getText with e | text <;> simp only [hgt] at h
    · exact absurd h (by simp)
    · rcases hpm : processMatches k p text (finditer text) st with e | st2 <;>
        simp only [hpm] at h
      · exact absurd h (by simp)
      · have hst2 := processMatches_prop
          (P := fun s => specCore s = true ∧ s.all (fun c => !c.isLower) = true)
          (Q := fun _ => True) k p text (finditer text) st st2 hpm
          (fun q hq => ⟨hst q hq, fun _ _ => trivial⟩)
          (fun i m hm => by
            obtain ⟨pre, post, _, _, hcore, _, _⟩ :=
              finditerAux_sound text 0 0 false i m hm
            exact specCore_upperStr m hcore)
          (fun _ _ _ _ => trivial)
        exact ih (k + 1) st2 st' h (fun q hq => (hst2 q hq).1)

/-- Pages whose text contains no pattern match leave the accumulators
untouched. -/
theorem processPages_no_matches :
    ∀ (ps : List Page) (k : Nat) (st : ScanState),
      (∀ p ∈ ps, ∃ t, p.getText = .ok t ∧ finditer t = []) →
      processPages ps k st = .ok st := by
  intro ps
  induction ps with
  | nil => intro k st _; rfl
  | cons p ps ih =>
    intro k st hps
    obtain ⟨t, hgt, hft⟩ := hps p (by simp)
    simp only [processPages, hgt, hft, processMatches]
    exact ih (k + 1) st (fun q hq => hps q (by simp [hq]))

/-- A duplicate-free list included in another list is no longer than it. -/
theorem nodup_subset_length (l1 l2 : List Str) (h1 : l1.Nodup)
    (hsub : ∀ x ∈ l1, x ∈ l2) : l1.length ≤ l2.length := by
  calc l1.length = l1.toFinset.card := (List.toFinset_card_of_nodup h1).symm
    _ ≤ l2.toFinset.card := Finset.card_le_card (fun x hx => by
        rw [List.mem_toFinset] at hx ⊢
        exact hsub x hx)
    _ ≤ l2.length := l2.toFinset_card_le

/-!
## Concrete documents used as test inputs
-/

/-- The input path used by the concrete runs. -/
def pathPlan : Str := "plan.pdf".toList

/-- A fallback index for total dict access in closed statements. -/
def emptyIndex : Index := { pdf_file := [], total_pages := 0, total_tags := 0, tags := [] }

/-- Dict lookup on the tags mapping. -/
def tagsLookup : List (Str × List Occurrence) → Str → List Occurrence
  | [], _ => []
  | (k, v) :: rest, t => if k = t then v else tagsLookup rest t

/-- A page whose text matches the pattern once but whose substring search
finds no visual instance: the matched tag is counted but never keyed. -/
def pageNoHit : Page :=
  { getText := .ok "01/AC501".toList
    searchFor := fun _ => .ok [] }

def envNoHit : Env :=
  { fileExists := fun _ => true
    openDoc := fun _ => .ok ⟨[pageNoHit]⟩
    writable := fun _ => true }

def idxNoHit : Index :=
  ((extract_tags_from_pdf envNoHit pathPlan).1).toOption.getD emptyIndex

def rect1 : Rectangle := ⟨36, 120, 86, 130⟩

def rectA : Rectangle := ⟨10, 20, 60, 30⟩

def rectB : Rectangle := ⟨10, 200, 60, 210⟩

def rectC : Rectangle := ⟨300, 400, 350, 410⟩

/-- Page 1 of the end-to-end scenario: one textual and one visual instance
of `01/AC501`. -/
def pageScenario1 : Page :=
  { getText := .ok "see detail 01/AC501 for more".toList
    searchFor := fun s => .ok (if s = "01/AC501".toList then [rect1] else []) }

/-- Page 2: no tags. -/
def pageScenario2 : Page :=
  { getText := .ok []
    searchFor := fun _ => .ok [] }

/-- Page 3: `01/AC501` twice and `03/AC602` once, both textually and
visually; `search_for` returns one rectangle per visual instance. -/
def pageScenario3 : Page :=
  { getText := .ok "01/AC501 then 01/AC501 and 03/AC602".toList
    searchFor := fun s => .ok
      (if s = "01/AC501".toList then [rectA, rectB]
       else if s = "03/AC602".toList then [rectC] else []) }

def docScenario : Document := ⟨[pageScenario1, pageScenario2, pageScenario3]⟩

def envScenario : Env :=
  { fileExists := fun _ => true
    openDoc := fun _ => .ok docScenario
    writable := fun _ => true }

def idxScenario : Index :=
  ((extract_tags_from_pdf envScenario pathPlan).1).toOption.getD emptyIndex

/-- A document whose only page raises while extracting text. -/
def pageRaising : Page :=
  { getText := .error (.libraryError "cannot extract text".toList)
    searchFor := fun _ => .ok [] }

def envRaising : Env :=
  { fileExists := fun _ => true
    openDoc := fun _ => .ok ⟨[pageRaising]⟩
    writable := fun _ => true }

/-- A zero-page document. -/
def envNoPages : Env :=
  { fileExists := fun _ => true
    openDoc := fun _ => .ok ⟨[]⟩
    writable := fun _ => true }

/-- A key with a nonempty occurrence list is an entry of the dict. -/
theorem tagsLookup_mem (m : List (Str × List Occurrence)) (t : Str)
    (h : tagsLookup m t ≠ []) : (t, tagsLookup m t) ∈ m := by
  induction m with
  | nil => exact absurd rfl h
  | cons p rest ih =>
    obtain ⟨k, v⟩ := p
    by_cases hk : k = t
    · subst hk
      simp [tagsLookup]
    · simp only [tagsLookup, hk, if_neg, if_false] at h ⊢
      exact List.mem_cons_of_mem _ (ih h)

/-- The first element of a nonempty list, via `getD`, is a member. -/
theorem headD_mem (l : List Occurrence) (d : Occurrence) (h : l ≠ []) :
    l.getD 0 d ∈ l := by
  cases l with
  | nil => exact absurd rfl h
  | cons x xs => simp [List.getD]

/-- An environment whose filesystem has no files at all. -/
def envMissing : Env :=
  { fileExists := fun _ => false
    openDoc := fun _ => .error (.libraryError [])
    writable := fun _ => true }

/-- A fallback occurrence for total list access in closed statements. -/
def emptyOccurrence : Occurrence :=
  { page := 0, snippet := [], bbox := ⟨0, 0, 0, 0⟩ }

/-!
## The claims
-/

/-- C1, counterexample: on a one-page document whose text matches
`01/AC501` but where `search_for` finds no visual instance, the returned
index has `total_tags = 1` while `tags` has no key at all: `total_tags`
does not equal the number of distinct keys of `tags`. -/
theorem c1_counterexample :
    (extract_tags_from_pdf envNoHit pathPlan).1 = .ok idxNoHit ∧
      idxNoHit.total_tags = 1 ∧ idxNoHit.tags = [] ∧
      ¬ (idxNoHit.total_tags = (tagKeys idxNoHit.tags).length) :=
  ⟨rfl, by decide, by decide, by decide⟩

/-- C1 (amended): in every index returned by `extract_tags_from_pdf`, the
keys of `tags` are distinct and number at most `total_tags` (which counts
the distinct normalized tags matched by the pattern); they number exactly
`total_tags` whenever every `search_for` call of the run returns at least
one rectangle, i.e. whenever every matched tag receives a bounding box. -/
theorem c1_total_tags_bounds (env : Env) (path : Str) (idx : Index)
    (h : (extract_tags_from_pdf env path).1 = .ok idx) :
    (tagKeys idx.tags).Nodup ∧ idx.tags.length ≤ idx.total_tags ∧
      ((∀ doc, env.openDoc path = .ok doc →
          ∀ p ∈ doc.pages, ∀ s l, p.searchFor s = .ok l → l ≠ []) →
        idx.tags.length = idx.total_tags) := by
  unfold extract_tags_from_pdf at h
  cases hfe : env.fileExists path <;> rw [hfe] at h
  · exact absurd h (by simp)
  · simp only [if_true] at h
    rcases hod : env.openDoc path with e | doc <;> simp only [hod] at h
    · exact absurd h (by simp)
    · rcases hpp : processPages doc.pages 0 ⟨[], []⟩ with e | st <;>
        simp only [hpp] at h
      · exact absurd h (by simp)
      · simp only [Except.ok.injEq] at h
        subst h
        obtain ⟨hk, ha, hsub⟩ := processPages_scanInv doc.pages 0 ⟨[], []⟩ st hpp
          ⟨by simp [tagKeys], by simp, by simp [tagKeys]⟩
        have hlenk : (tagKeys st.tag_occurrences).length
            = st.tag_occurrences.length := by
          simp [tagKeys]
        refine ⟨hk, ?_, ?_⟩
        · have h1 := nodup_subset_length _ _ hk hsub
          rw [hlenk] at h1
          exact h1
        · intro hne
          have hfull := processPages_scanInv_full doc.pages 0 ⟨[], []⟩ st hpp
            (hne doc rfl) (by simp)
          have h1 := nodup_subset_length _ _ hk hsub
          have h2 := nodup_subset_length _ _ ha hfull
          simp only [hlenk] at h1 h2
          show st.tag_occurrences.length = st.all_tags.length
          omega

/-- C1 witness: the amended statement, instantiated on the no-hit document. -/
theorem c1_witness :
    (tagKeys idxNoHit.tags).Nodup ∧ idxNoHit.tags.length ≤ idxNoHit.total_tags ∧
      ((∀ doc, envNoHit.openDoc pathPlan = .ok doc →
          ∀ p ∈ doc.pages, ∀ s l, p.searchFor s = .ok l → l ≠ []) →
        idxNoHit.tags.length = idxNoHit.total_tags) :=
  c1_total_tags_bounds envNoHit pathPlan idxNoHit rfl

/-- C2, counterexample: on the spec's 3-page scenario document (page 1 has
one visual instance of `01/AC501`, page 3 has two of `01/AC501` and one of
`03/AC602`, and `search_for` returns exactly one rectangle per visual
instance), the key `01/AC501` receives 5 occurrences, not 3: each of the two
page-3 matches is attributed both page-3 rectangles. -/
theorem c2_counterexample :
    (extract_tags_from_pdf envScenario pathPlan).1 = .ok idxScenario ∧
      ¬ ((tagsLookup idxScenario.tags "01/AC501".toList).length = 3) ∧
      (tagsLookup idxScenario.tags "01/AC501".toList).length = 5 :=
  ⟨rfl, by decide, by decide⟩

/-- C2 (amended): on that document the run returns `total_pages = 3`,
`total_tags = 2`, keys `01/AC501` and `03/AC602`; `01/AC501` carries 5
occurrences (1 on page 1 and 4 on page 3, each page-3 match being attributed
both visual instances), and `03/AC602` carries 1 occurrence on page 3. -/
theorem c2_scenario :
    (extract_tags_from_pdf envScenario pathPlan).1 = .ok idxScenario ∧
      idxScenario.total_pages = 3 ∧ idxScenario.total_tags = 2 ∧
      tagKeys idxScenario.tags = ["01/AC501".toList, "03/AC602".toList] ∧
      (tagsLookup idxScenario.tags "01/AC501".toList).map Occurrence.page
        = [1, 3, 3, 3, 3] ∧
      (tagsLookup idxScenario.tags "03/AC602".toList).map Occurrence.page = [3] :=
  ⟨rfl, by decide, by decide, by decide, by decide, by decide⟩

/-- C3: the matcher reports `(j, m)` on a text precisely when `m` sits at
offset `j`, has the (case-insensitive) shape `\d{2}/[A-Z]{2}\d{3,4}`, and is
word-boundary delimited on both sides; in particular `01/AC501` and
`03/ac602` are matched (normalizing to `01/AC501` and `03/AC602`), while
`001/AC501` and `01/A501` yield no match. -/
theorem c3_pattern_iff :
    (∀ (t : Str) (j : Nat) (m : Str), (j, m) ∈ finditer t ↔
      ∃ pre post, t = pre ++ m ++ post ∧ j = pre.length ∧ specCore m = true ∧
        okBefore false pre ∧ okAfter post) ∧
      finditer "01/AC501".toList = [(0, "01/AC501".toList)] ∧
      upperStr "01/AC501".toList = "01/AC501".toList ∧
      finditer "03/ac602".toList = [(0, "03/ac602".toList)] ∧
      upperStr "03/ac602".toList = "03/AC602".toList ∧
      finditer "001/AC501".toList = [] ∧
      finditer "01/A501".toList = [] :=
  ⟨finditer_iff, by decide, by decide, by decide, by decide, by decide, by decide⟩

/-- C3 witness: the characterization applied at a concrete input. -/
theorem c3_witness : (0, "01/AC501".toList) ∈ finditer "01/AC501".toList :=
  (c3_pattern_iff.1 "01/AC501".toList 0 "01/AC501".toList).mpr
    ⟨[], [], by decide, by decide, by decide, rfl, trivial⟩

set_option maxRecDepth 4000 in
/-- C4: with the default context of 50, the snippet is drawn from the window
`[max(0, start-50), min(len(text), end+50)]` (this is the tokens of that
window rejoined), the `"..."` marker is prefixed iff the window's left edge
is positive and suffixed iff its right edge falls short of the text's end;
for a text of length 200 a match at `[100, 108]` is sourced from
`text[50:158]` with both markers, and a match at `[0, 8]` gets no marker
in front. -/
theorem c4_snippet_window :
    (∀ (text : Str) (start finish : Nat),
      extract_snippet text start finish 50 =
        (if 0 < start - 50 then "...".toList else []) ++
        List.intercalate [' ']
          (pySplit ((text.drop (start - 50)).take
            (min text.length (finish + 50) - (start - 50)))) ++
        (if min text.length (finish + 50) < text.length then "...".toList else [])) ∧
      (∀ text : Str, text.length = 200 →
        extract_snippet text 100 108 50 =
          "...".toList ++ List.intercalate [' ']
            (pySplit ((text.drop 50).take 108)) ++ "...".toList) ∧
      (∀ text : Str, text.length = 200 →
        extract_snippet text 0 8 50 =
          List.intercalate [' '] (pySplit (text.take 58)) ++ "...".toList) := by
  have hgen : ∀ (text : Str) (start finish : Nat),
      extract_snippet text start finish 50 =
        (if 0 < start - 50 then "...".toList else []) ++
        List.intercalate [' ']
          (pySplit ((text.drop (start - 50)).take
            (min text.length (finish + 50) - (start - 50)))) ++
        (if min text.length (finish + 50) < text.length then "...".toList else []) := by
    intro text start finish
    simp only [extract_snippet]
    rw [pySplit_pyStrip]
    rw [Nat.min_comm (finish + 50) text.length]
    by_cases h1 : 0 < start - 50 <;>
      by_cases h2 : min text.length (finish + 50) < text.length <;>
        simp [h1, h2, List.append_assoc]
  refine ⟨hgen, ?_, ?_⟩
  · intro text hlen
    rw [hgen text 100 108, hlen]
    norm_num
  · intro text hlen
    rw [hgen text 0 8, hlen]
    norm_num

/-- C4 witness: the length-200 instance, on a concrete text. -/
theorem c4_witness :
    extract_snippet (List.replicate 200 'a') 100 108 50
      = "...".toList ++ List.intercalate [' ']
          (pySplit (((List.replicate 200 'a').drop 50).take 108)) ++ "...".toList :=
  c4_snippet_window.2.1 (List.replicate 200 'a') (by rw [List.length_replicate])

set_option maxRecDepth 4000 in
/-- C5: for every input, the snippet body is exactly the window's
whitespace-separated tokens rejoined with single spaces: boundary
whitespace disappears and every internal whitespace run becomes one space,
every token being nonempty and whitespace-free. -/
theorem c5_collapse :
    ∀ (text : Str) (start finish context : Nat),
      (extract_snippet text start finish context =
        (if 0 < start - context then "...".toList else []) ++
        List.intercalate [' ']
          (pySplit ((text.drop (start - context)).take
            (min (finish + context) text.length - (start - context)))) ++
        (if min (finish + context) text.length < text.length then "...".toList
         else [])) ∧
      (∀ tok ∈ pySplit ((text.drop (start - context)).take
          (min (finish + context) text.length - (start - context))),
        tok ≠ [] ∧ ∀ c ∈ tok, isPySpace c = false) := by
  intro text start finish context
  constructor
  · simp only [extract_snippet]
    rw [pySplit_pyStrip]
    by_cases h1 : 0 < start - context <;>
      by_cases h2 : min (finish + context) text.length < text.length <;>
        simp [h1, h2, List.append_assoc]
  · exact pySplit_tokens _

/-- C5 witness: a concrete token of a concrete window. -/
theorem c5_witness :
    "x".toList ≠ [] ∧ ∀ c ∈ "x".toList, isPySpace c = false :=
  (c5_collapse "x y".toList 0 1 5).2 "x".toList (by decide)

set_option maxRecDepth 4000 in
/-- C6: invoking the tool on a path that does not exist makes
`extract_tags_from_pdf` fail with the `FileNotFoundError` before any
document processing (no handle event at all), and `main` exits non-zero
with the `Error: <message>` line on stderr and writes no output file. -/
theorem c6_missing_file (env : Env) (pdf output : Str)
    (h : env.fileExists pdf = false) :
    extract_tags_from_pdf env pdf
        = (.error (.fileNotFound ("PDF file not found: ".toList ++ pdf)), []) ∧
      main env pdf output
        = { exitCode := 1,
            stderrLines := ["Error: PDF file not found: ".toList ++ pdf],
            written := [] } ∧
      (main env pdf output).exitCode ≠ 0 := by
  have he : extract_tags_from_pdf env pdf
      = (.error (.fileNotFound ("PDF file not found: ".toList ++ pdf)), []) := by
    unfold extract_tags_from_pdf
    rw [h]
    rfl
  have hm : main env pdf output
      = { exitCode := 1,
          stderrLines := ["Error: PDF file not found: ".toList ++ pdf],
          written := [] } := by
    unfold main
    rw [he]
    simp only [errorLine, errMessage]
    rw [← List.append_assoc]
    rfl
  exact ⟨he, hm, by rw [hm]; simp⟩

/-- C6 witness: the missing-file behaviour on a concrete environment. -/
theorem c6_witness :
    extract_tags_from_pdf envMissing pathPlan
        = (.error (.fileNotFound ("PDF file not found: ".toList ++ pathPlan)), []) ∧
      main envMissing pathPlan "index.json".toList
        = { exitCode := 1,
            stderrLines := ["Error: PDF file not found: ".toList ++ pathPlan],
            written := [] } ∧
      (main envMissing pathPlan "index.json".toList).exitCode ≠ 0 :=
  c6_missing_file envMissing pathPlan "index.json".toList rfl

/-- C7, counterexample: when extracting a page's text raises, the exception
propagates out of `extract_tags_from_pdf` after the document was opened but
before `doc.close()` is reached: the handle is not released (the claim says
it is released exactly once even then). -/
theorem c7_counterexample :
    (extract_tags_from_pdf envRaising pathPlan).1
        = .error (.libraryError "cannot extract text".toList) ∧
      (extract_tags_from_pdf envRaising pathPlan).2 = [Ev.openEv] ∧
      (extract_tags_from_pdf envRaising pathPlan).2.count Ev.closeEv = 0 :=
  ⟨rfl, rfl, by decide⟩

/-- C7 (amended): the document handle is closed exactly once on every run
that returns an index, and never otherwise: a run that opens the document
and then raises during page iteration leaves the handle unreleased. -/
theorem c7_close_count (env : Env) (path : Str) :
    ((extract_tags_from_pdf env path).2.count Ev.closeEv
        = match (extract_tags_from_pdf env path).1 with
          | .ok _ => 1
          | .error _ => 0) ∧
      ∀ idx, (extract_tags_from_pdf env path).1 = .ok idx →
        (extract_tags_from_pdf env path).2 = [Ev.openEv, Ev.closeEv] := by
  unfold extract_tags_from_pdf
  cases hfe : env.fileExists path
  · constructor
    · show List.count Ev.closeEv ([] : List Ev) = 0
      decide
    · intro idx hidx
      exact absurd hidx (by simp)
  · simp only [if_true]
    rcases hod : env.openDoc path with e | doc
    · constructor
      · show List.count Ev.closeEv ([] : List Ev) = 0
        decide
      · intro idx hidx
        exact absurd hidx (by simp)
    · rcases hpp : processPages doc.pages 0 ⟨[], []⟩ with e | st
      · simp only [hpp]
        constructor
        · decide
        · intro idx hidx
          exact absurd hidx (by simp)
      · simp only [hpp]
        constructor
        · decide
        · intro idx _
          trivial

/-- C7 witness: the amended statement on a run that succeeds. -/
theorem c7_witness :
    (extract_tags_from_pdf envScenario pathPlan).2 = [Ev.openEv, Ev.closeEv] :=
  (c7_close_count envScenario pathPlan).2 idxScenario rfl

/-- C8: in every returned index, every occurrence's `page` is a 1-based
number lying in `[1, total_pages]`. -/
theorem c8_occurrence_pages (env : Env) (path : Str) (idx : Index)
    (h : (extract_tags_from_pdf env path).1 = .ok idx) :
    ∀ p ∈ idx.tags, ∀ o ∈ p.2, 1 ≤ o.page ∧ o.page ≤ idx.total_pages := by
  unfold extract_tags_from_pdf at h
  cases hfe : env.fileExists path <;> rw [hfe] at h
  · exact absurd h (by simp)
  · simp only [if_true] at h
    rcases hod : env.openDoc path with e | doc <;> simp only [hod] at h
    · exact absurd h (by simp)
    · rcases hpp : processPages doc.pages 0 ⟨[], []⟩ with e | st <;>
        simp only [hpp] at h
      · exact absurd h (by simp)
      · simp only [Except.ok.injEq] at h
        subst h
        have := processPages_page_bound doc.pages 0 ⟨[], []⟩ st hpp (by simp)
        simpa using this

/-- C8 witness: a concrete occurrence of the scenario run is in range. -/
theorem c8_witness :
    1 ≤ (List.getD (tagsLookup idxScenario.tags "01/AC501".toList) 0
          emptyOccurrence).page ∧
      (List.getD (tagsLookup idxScenario.tags "01/AC501".toList) 0
          emptyOccurrence).page ≤ idxScenario.total_pages :=
  c8_occurrence_pages envScenario pathPlan idxScenario rfl
    ("01/AC501".toList, tagsLookup idxScenario.tags "01/AC501".toList)
    (tagsLookup_mem idxScenario.tags ("01/AC501".toList) (by decide))
    (List.getD (tagsLookup idxScenario.tags "01/AC501".toList) 0 emptyOccurrence)
    (headD_mem _ emptyOccurrence (by decide))

/-- C9: every key of the `tags` mapping in a returned index has the strict
token shape `\d{2}/[A-Z]{2}\d{3,4}` and contains no lower-case character,
because keys are only ever created from upper-cased regex matches. -/
theorem c9_keys_normalized (env : Env) (path : Str) (idx : Index)
    (h : (extract_tags_from_pdf env path).1 = .ok idx) :
    ∀ p ∈ idx.tags,
      specCore p.1 = true ∧ p.1.all (fun c => !c.isLower) = true := by
  unfold extract_tags_from_pdf at h
  cases hfe : env.fileExists path <;> rw [hfe] at h
  · exact absurd h (by simp)
  · simp only [if_true] at h
    rcases hod : env.openDoc path with e | doc <;> simp only [hod] at h
    · exact absurd h (by simp)
    · rcases hpp : processPages doc.pages 0 ⟨[], []⟩ with e | st <;>
        simp only [hpp] at h
      · exact absurd h (by simp)
      · simp only [Except.ok.injEq] at h
        subst h
        have := processPages_key_prop doc.pages 0 ⟨[], []⟩ st hpp (by simp)
        simpa using this

/-- C9 witness: the scenario's first key is upper-case and well-shaped. -/
theorem c9_witness :
    specCore "01/AC501".toList = true ∧
      ("01/AC501".toList).all (fun c => !c.isLower) = true :=
  c9_keys_normalized envScenario pathPlan idxScenario rfl
    ("01/AC501".toList, tagsLookup idxScenario.tags "01/AC501".toList)
    (tagsLookup_mem idxScenario.tags ("01/AC501".toList) (by decide))

/-- C10: when the document opens and no page text contains a pattern match
(in particular for a zero-page document), the run returns an index with
`total_tags = 0`, an empty `tags` mapping, `total_pages` the document's page
count, and `pdf_file` the input's basename. -/
theorem c10_no_match_index (env : Env) (path : Str) (doc : Document)
    (h1 : env.fileExists path = true) (h2 : env.openDoc path = .ok doc)
    (h3 : ∀ p ∈ doc.pages, ∃ t, p.getText = .ok t ∧ finditer t = []) :
    (extract_tags_from_pdf env path).1
      = .ok { pdf_file := pathName path, total_pages := doc.pages.length,
              total_tags := 0, tags := [] } := by
  unfold extract_tags_from_pdf
  rw [h1]
  simp only [if_true, h2]
  rw [processPages_no_matches doc.pages 0 ⟨[], []⟩ h3]
  rfl

/-- C10 witness: the zero-page document. -/
theorem c10_witness :
    (extract_tags_from_pdf envNoPages pathPlan).1
      = .ok { pdf_file := "plan.pdf".toList, total_pages := 0,
              total_tags := 0, tags := [] } :=
  c10_no_match_index envNoPages pathPlan ⟨[]⟩ rfl rfl (by intro p hp; simp at hp)

end ExtractTags
